import Mathlib

/-
  Formal model of the blockchain-rust node core.

  Shallow embedding conventions:
  - Rust Vec<u8> byte strings are lists of naturals.
  - Rust i32 / u128 integers are Lean Int / Nat; the cast v as usize is
    modelled exactly as reduction modulo 2^64 (asUsize below).
  - HashMap<String, T> values are association lists looked up with
    List.lookup; insertion overwrites the key.
  - Fallible Rust code returns Except String; a Rust panic (unwrap of None,
    out-of-range slice or index) is modelled by the none case of an outer
    Option layer.  A total Rust function that can panic therefore has the
    Lean type ... -> Option (Except String A).
  - The cryptographic primitives (SHA-256 both as 64-character hex string
    and as 32-byte digest, and the bincode serialization feeding them) are
    parameters of the model, bundled in the Crypto structure: every theorem
    that does not need a concrete hash quantifies over them.  Ed25519 is
    modelled as an ideal deterministic signature scheme: a signature is an
    injective encoding of the signed message together with the secret key,
    and verification checks that encoding against the public key.
-/

namespace BRust

/-- Byte strings (Rust Vec<u8>). -/
abbrev Bytes := List Nat

/-- Rust cast v as usize for an i32 value: reduction modulo 2^64. -/
def asUsize (v : Int) : Nat := (v % (2 ^ 64)).toNat

/-- Bytes of a string (Rust str::as_bytes, at character granularity). -/
def strBytes (s : String) : Bytes := s.toList.map Char.toNat

/-- src/tx.rs: TXInput. -/
structure TXInput where
  txid : String
  vout : Int
  signature : Bytes
  pub_key : Bytes
deriving DecidableEq

/-- src/tx.rs: TXOutput. -/
structure TXOutput where
  value : Int
  pub_key_hash : Bytes
deriving DecidableEq

/-- src/tx.rs: TXOutputs. -/
structure TXOutputs where
  outputs : List TXOutput
deriving DecidableEq

/-- src/transaction.rs: Transaction. -/
structure Transaction where
  id : String
  vin : List TXInput
  vout : List TXOutput
deriving DecidableEq

/-- Abstract cryptographic/serialization oracle.  sha256Hex is the
64-character hex digest of a byte string, sha256Bytes the raw 32-byte
digest, txHash the hex digest of the bincode serialization of a
transaction. -/
structure Crypto where
  sha256Hex : Bytes → String
  sha256Bytes : Bytes → Bytes
  txHash : Transaction → String

/-- Ideal Ed25519: the public key derived from a secret key. -/
def pubOf (sk : Bytes) : Bytes := 0 :: sk

/-- Ideal Ed25519 signature: an injective encoding of message and secret
key (crypto::ed25519::signature in the source). -/
def ed25519Signature (msg : String) (privateKey : Bytes) : Bytes :=
  msg.length :: (strBytes msg ++ privateKey)

/-- Ideal Ed25519 verification (crypto::ed25519::verify in the source):
succeeds exactly on a signature of this message under the secret key
matching the public key. -/
def ed25519Verify (msg : String) (pubKey sig : Bytes) : Bool :=
  match sig with
  | [] => false
  | n :: rest =>
    n == msg.length && rest.take n == strBytes msg && pubOf (rest.drop n) == pubKey

/-- Map from txid to previous transaction (HashMap<String, Transaction>). -/
abbrev TxMap := List (String × Transaction)

/-- src/transaction.rs, Transaction::is_coinbase. -/
def Transaction.is_coinbase (self : Transaction) : Bool :=
  match self.vin with
  | [i] => i.txid == "" && i.vout == -1
  | _ => false

/-- src/transaction.rs, Transaction::trim_copy. -/
def Transaction.trim_copy (self : Transaction) : Transaction :=
  { id := self.id
    vin := self.vin.map fun i =>
      { txid := i.txid, vout := i.vout, signature := [], pub_key := [] }
    vout := self.vout.map fun o =>
      { value := o.value, pub_key_hash := o.pub_key_hash } }

/-- src/transaction.rs, Transaction::hash.  The receiver's id is set to the
empty string before serialization and never restored; the digest is taken
of that blanked serialization.  Returns (digest, mutated receiver). -/
def Transaction.hash (C : Crypto) (self : Transaction) : String × Transaction :=
  let blanked : Transaction := { self with id := "" }
  (C.txHash blanked, blanked)

/-- The loop shared by sign and verify that checks every input's previous
transaction: unwrap of a missing map entry is a panic (none); a present
entry whose id is empty triggers the error return (some false). -/
def checkPrevLoop (prev : TxMap) : List TXInput → Option Bool
  | [] => some true
  | i :: rest =>
    match prev.lookup i.txid with
    | none => none
    | some t => if t.id == "" then some false else checkPrevLoop prev rest

/-- src/transaction.rs, the per-input loop of Transaction::sign.  The
state is (trimmed copy, original transaction); each step stamps the
producing output's pub_key_hash into slot inId of the trimmed copy,
recomputes its id, clears the stamped pub_key again (step b in the
source), and stores the Ed25519 signature of the digest into the original
transaction. -/
def signLoop (C : Crypto) (privateKey : Bytes) (prev : TxMap) :
    List Nat → Transaction → Transaction → Option Transaction
  | [], _, self => some self
  | inId :: rest, txCopy, self =>
    match txCopy.vin.get? inId with
    | none => none
    | some txi =>
      match prev.lookup txi.txid with
      | none => none
      | some prevTx =>
        match prevTx.vout.get? (asUsize txi.vout) with
        | none => none
        | some out =>
          let stamped : TXInput := { txi with signature := [], pub_key := out.pub_key_hash }
          let txCopy1 : Transaction := { txCopy with vin := txCopy.vin.set inId stamped }
          let digest := (Transaction.hash C txCopy1).1
          let txCopy2 : Transaction := { (Transaction.hash C txCopy1).2 with id := digest }
          let txCopy3 : Transaction :=
            { txCopy2 with vin := txCopy2.vin.set inId { stamped with pub_key := [] } }
          let sig := ed25519Signature digest privateKey
          match self.vin.get? inId with
          | none => none
          | some si =>
            signLoop C privateKey prev rest txCopy3
              { self with vin := self.vin.set inId { si with signature := sig } }

/-- src/transaction.rs, Transaction::sign. -/
def Transaction.sign (C : Crypto) (self : Transaction) (privateKey : Bytes)
    (prev : TxMap) : Option (Except String Transaction) :=
  if self.is_coinbase then some (.ok self)
  else
    match checkPrevLoop prev self.vin with
    | none => none
    | some false => some (.error "Transaction not found")
    | some true =>
      match signLoop C privateKey prev (List.range self.vin.length) self.trim_copy self with
      | none => none
      | some self1 => some (.ok self1)

/-- src/transaction.rs, the inner loop of Transaction::verify.  Faithful
to the source: unlike signLoop, the stamped pub_key is NOT cleared after
the digest is taken, so stamps accumulate across iterations. -/
def verifyLoop (C : Crypto) (prev : TxMap) (self : Transaction) :
    List Nat → Transaction → Option Bool
  | [], _ => some true
  | inId :: rest, txCopy =>
    match txCopy.vin.get? inId with
    | none => none
    | some txi =>
      match prev.lookup txi.txid with
      | none => none
      | some prevTx =>
        match prevTx.vout.get? (asUsize txi.vout) with
        | none => none
        | some out =>
          let stamped : TXInput := { txi with pub_key := out.pub_key_hash, signature := [] }
          let txCopy1 : Transaction := { txCopy with vin := txCopy.vin.set inId stamped }
          let digest := (Transaction.hash C txCopy1).1
          let txCopy2 : Transaction := { (Transaction.hash C txCopy1).2 with id := digest }
          match self.vin.get? inId with
          | none => none
          | some si =>
            if ed25519Verify digest si.pub_key si.signature then
              verifyLoop C prev self rest txCopy2
            else some false

/-- src/transaction.rs, the outer loop of Transaction::verify: per input,
check its previous transaction (unwrap of a missing entry panics), then
run the full inner loop on a fresh trimmed copy. -/
def verifyOuter (C : Crypto) (prev : TxMap) (self : Transaction) :
    List TXInput → Option (Except String Bool)
  | [] => some (.ok true)
  | txInput :: rest =>
    match prev.lookup txInput.txid with
    | none => none
    | some t =>
      if t.id == "" then some (.error "Error: Previous transaction is not correct")
      else
        let txCopy := self.trim_copy
        match verifyLoop C prev self (List.range txCopy.vin.length) txCopy with
        | none => none
        | some false => some (.ok false)
        | some true => verifyOuter C prev self rest

/-- src/transaction.rs, Transaction::verify. -/
def Transaction.verify (C : Crypto) (self : Transaction) (prev : TxMap) :
    Option (Except String Bool) :=
  if self.is_coinbase then some (.ok true)
  else verifyOuter C prev self self.vin

/-- src/block.rs: Block. -/
structure Block where
  timestamp : Nat
  transactions : List Transaction
  prev_block_hash : String
  hash : String
  height : Int
  nonce : Int
deriving DecidableEq

/-- src/block.rs: TARGET_HEXT, the proof-of-work difficulty constant. -/
def TARGET_HEXT : Nat := 4

/-- Model of the bincode serialization of the tuple
(prev_block_hash, merkle_root, timestamp, TARGET_HEXT, nonce) built by
Block::prepare_hash_data: length-prefixed string and byte-vector parts
followed by the integers, the i32 nonce reduced to its unsigned
representative. -/
def encodeTuple (prev : String) (root : Bytes) (timestamp : Nat)
    (target : Nat) (nonce : Int) : Bytes :=
  (strBytes prev).length :: strBytes prev ++ root.length :: root ++
    [timestamp, target, (nonce % (2 ^ 32)).toNat]

/-- Modelled from the spec: the merkle_cbt crate's complete binary merkle
tree (external dependency).  Node i of a tree over n leaves is leaf
i + 1 - n when n <= i + 1, and otherwise the SHA-256 digest of the
concatenation of its two children at 2i+1 and 2i+2. -/
def cbmtNode (C : Crypto) (leaves : List Bytes) (i : Nat) : Bytes :=
  if h : leaves.length ≤ i + 1 then ((leaves.get? (i + 1 - leaves.length)).getD [])
  else
    C.sha256Bytes (cbmtNode C leaves (2 * i + 1) ++ cbmtNode C leaves (2 * i + 2))
termination_by leaves.length - 1 - i
decreasing_by
  all_goals simp only [not_le] at h
  all_goals omega

/-- Modelled from the spec: the root of the complete binary merkle tree;
the empty tree has the empty root. -/
def cbmtRoot (C : Crypto) (leaves : List Bytes) : Bytes :=
  if leaves.length = 0 then [] else cbmtNode C leaves 0

/-- src/block.rs, Block::hash_transaction: merkle root over the bytes of
the transactions' digest strings. -/
def Block.hash_transaction (C : Crypto) (self : Block) : Bytes :=
  cbmtRoot C (self.transactions.map fun tx => strBytes (Transaction.hash C tx).1)

/-- src/block.rs, Block::prepare_hash_data. -/
def Block.prepare_hash_data (C : Crypto) (self : Block) : Bytes :=
  encodeTuple self.prev_block_hash (self.hash_transaction C) self.timestamp
    TARGET_HEXT self.nonce

/-- src/block.rs, Block::validate: the first TARGET_HEXT characters of the
candidate hex digest are all the zero character.  (A real SHA-256 hex
digest has 64 characters, so the source's byte slice of length 4 is the
string prefix taken here.) -/
def Block.validate (C : Crypto) (self : Block) : Bool :=
  (C.sha256Hex (self.prepare_hash_data C)).take TARGET_HEXT == "0000"

/-- src/block.rs, Block::run_proof_of_work.  The source loops until
validate succeeds, incrementing nonce; termination is probabilistic, so
the model takes explicit fuel and returns none when it runs out (the
none also covers divergence). -/
def runProofOfWork (C : Crypto) : Nat → Block → Option Block
  | 0, _ => none
  | fuel + 1, b =>
    if b.validate C then some { b with hash := C.sha256Hex (b.prepare_hash_data C) }
    else runProofOfWork C fuel { b with nonce := b.nonce + 1 }

/-- src/block.rs, Block::new_block.  The wall-clock timestamp is a
parameter of the model. -/
def newBlock (C : Crypto) (fuel : Nat) (timestamp : Nat) (data : List Transaction)
    (prev_block_hash : String) (height : Int) : Option Block :=
  runProofOfWork C fuel
    { timestamp := timestamp, transactions := data,
      prev_block_hash := prev_block_hash, hash := "", height := height, nonce := 0 }

/-- Values of the sled block store: either a serialized block or raw hash
bytes (the value of the LAST key). -/
inductive DbVal where
  | blk (b : Block)
  | str (s : String)
deriving DecidableEq

/-- The sled key/value store at data/blocks, as an association list. -/
abbrev Db := List (String × DbVal)

/-- Read a key of the block store. -/
def dbGet (db : Db) (k : String) : Option DbVal := db.lookup k

/-- Insert (overwrite) a key of the block store. -/
def dbInsert (db : Db) (k : String) (v : DbVal) : Db :=
  (k, v) :: db.filter (fun p => p.1 != k)

/-- Using a stored value as a lookup key requires its hash string; the
bytes of a serialized block never coincide with a stored key, so that
case behaves as a failed lookup. -/
def dbValAsKey : DbVal → Option String
  | .str s => some s
  | .blk _ => none

/-- src/blockchain.rs: BlockChain, the in-memory tip plus the store. -/
structure BlockChain where
  current_hash : String
  db : Db
deriving DecidableEq

/-- src/blockchain.rs, BlockChain::get_best_height: absent LAST yields
Ok(0); a dangling LAST pointer panics (unwrap of None); a value that does
not deserialize as a block is an error. -/
def getBestHeight (bc : BlockChain) : Option (Except String Int) :=
  match dbGet bc.db "LAST" with
  | none => some (.ok 0)
  | some v =>
    match dbValAsKey v with
    | none => none
    | some lastHash =>
      match dbGet bc.db lastHash with
      | none => none
      | some (.str _) => some (.error "SerializationError")
      | some (.blk b) => some (.ok b.height)

/-- src/blockchain.rs, the iterator of BlockChainIter::next, walking
prev_block_hash pointers from a starting hash; a missing key or a value
that is not a block ends the walk.  Fuel bounds the walk (a cyclic store
would make the source iterator spin forever). -/
def chainIterFrom (db : Db) : Nat → String → List Block
  | 0, _ => []
  | fuel + 1, h =>
    match dbGet db h with
    | some (.blk b) => b :: chainIterFrom db fuel b.prev_block_hash
    | _ => []

/-- src/blockchain.rs, BlockChain::iter starting at the in-memory tip. -/
def BlockChain.iterBlocks (bc : BlockChain) (fuel : Nat) : List Block :=
  chainIterFrom bc.db fuel bc.current_hash

/-- src/blockchain.rs, BlockChain::find_transaction. -/
def findTransaction (bc : BlockChain) (fuel : Nat) (id : String) :
    Except String Transaction :=
  match (bc.iterBlocks fuel).findSome?
      (fun b => b.transactions.find? (fun tx => tx.id == id)) with
  | some tx => .ok tx
  | none => .error "Transaction is not found"

/-- HashMap insertion for the previous-transaction map. -/
def tmInsert (m : TxMap) (k : String) (v : Transaction) : TxMap :=
  (k, v) :: m.filter (fun p => p.1 != k)

/-- src/blockchain.rs, the loop of BlockChain::get_prev_txs. -/
def getPrevTxsLoop (bc : BlockChain) (fuel : Nat) :
    List TXInput → TxMap → Except String TxMap
  | [], acc => .ok acc
  | i :: rest, acc =>
    match findTransaction bc fuel i.txid with
    | .error e => .error e
    | .ok prevTx => getPrevTxsLoop bc fuel rest (tmInsert acc i.txid prevTx)

/-- src/blockchain.rs, BlockChain::get_prev_txs. -/
def getPrevTxs (bc : BlockChain) (fuel : Nat) (tx : Transaction) :
    Except String TxMap :=
  getPrevTxsLoop bc fuel tx.vin []

/-- src/blockchain.rs, BlockChain::verify_transaction. -/
def verifyTransaction (C : Crypto) (bc : BlockChain) (fuel : Nat)
    (tx : Transaction) : Option (Except String Bool) :=
  match getPrevTxs bc fuel tx with
  | .error e => some (.error e)
  | .ok prev => Transaction.verify C tx prev

/-- src/blockchain.rs, the transaction-verification loop at the top of
BlockChain::mine_block: the first transaction that does not verify as
true aborts with the invalid-transaction error. -/
def mineBlockCheckTxs (C : Crypto) (bc : BlockChain) (fuel : Nat) :
    List Transaction → Option (Except String Unit)
  | [] => some (.ok ())
  | tx :: rest =>
    match verifyTransaction C bc fuel tx with
    | none => none
    | some (.error e) => some (.error e)
    | some (.ok false) => some (.error ("Transaction is not valid: " ++ tx.id))
    | some (.ok true) => mineBlockCheckTxs C bc fuel rest

/-- src/blockchain.rs, BlockChain::mine_block, threading the mutable
receiver: the result pairs the returned value (none for a panic) with the
final state.  A LAST value that is not hash bytes makes the
String::from_utf8 conversion fail, modelled as its error return. -/
def mineBlock (C : Crypto) (bc : BlockChain) (iterFuel powFuel ts : Nat)
    (txs : List Transaction) : Option (Except String Block) × BlockChain :=
  match mineBlockCheckTxs C bc iterFuel txs with
  | none => (none, bc)
  | some (.error e) => (some (.error e), bc)
  | some (.ok ()) =>
    match dbGet bc.db "LAST" with
    | none => (none, bc)
    | some lastVal =>
      match dbValAsKey lastVal with
      | none => (some (.error "FromUtf8Error"), bc)
      | some lastHash =>
        match getBestHeight bc with
        | none => (none, bc)
        | some (.error e) => (some (.error e), bc)
        | some (.ok bestH) =>
          match newBlock C powFuel ts txs lastHash (bestH + 1) with
          | none => (none, bc)
          | some nb =>
            let db1 := dbInsert bc.db nb.hash (.blk nb)
            let db2 := dbInsert db1 "LAST" (.str nb.hash)
            (some (.ok nb), { current_hash := nb.hash, db := db2 })

/-- src/blockchain.rs, BlockChain::add_block, threading the mutable
receiver as in mineBlock.  A block whose hash is already a key returns
Ok immediately; otherwise the block is inserted and LAST advances only
when its height exceeds the current best (read after the insertion, as
in the source). -/
def addBlock (bc : BlockChain) (b : Block) :
    Option (Except String Unit) × BlockChain :=
  match dbGet bc.db b.hash with
  | some _ => (some (.ok ()), bc)
  | none =>
    let bc1 : BlockChain := { bc with db := dbInsert bc.db b.hash (.blk b) }
    match getBestHeight bc1 with
    | none => (none, bc1)
    | some (.error e) => (some (.error e), bc1)
    | some (.ok lastHeight) =>
      if b.height > lastHeight then
        (some (.ok ()),
          { current_hash := b.hash, db := dbInsert bc1.db "LAST" (.str b.hash) })
      else (some (.ok ()), bc1)

/-- src/tx.rs, TXOutput::can_be_unlock_with. -/
def TXOutput.can_be_unlock_with (self : TXOutput) (unlocking_data : Bytes) : Bool :=
  self.pub_key_hash == unlocking_data

/-- The sled key/value store at data/utxos: txid to surviving outputs,
iterated in stored order. -/
abbrev UtxoDb := List (String × TXOutputs)

/-- Remove a key of the UTXO store. -/
def utxoRemove (db : UtxoDb) (k : String) : UtxoDb :=
  db.filter (fun p => p.1 != k)

/-- Insert (overwrite) a key of the UTXO store. -/
def utxoInsert (db : UtxoDb) (k : String) (v : TXOutputs) : UtxoDb :=
  (k, v) :: db.filter (fun p => p.1 != k)

/-- src/utxoset.rs, the per-input part of Utxoset::update for one
non-coinbase transaction: load the entry at the input's txid (unwrap of a
missing entry panics), drop the output at position vout, delete the key
if nothing remains, else rewrite it. -/
def utxoUpdateInputs (db : UtxoDb) : List TXInput → Option UtxoDb
  | [] => some db
  | i :: rest =>
    match db.lookup i.txid with
    | none => none
    | some outs =>
      let updateOuts : List TXOutput :=
        ((outs.outputs.enum.filter (fun p => p.1 != asUsize i.vout)).map (fun p => p.2))
      let db1 :=
        if updateOuts.isEmpty then utxoRemove db i.txid
        else utxoInsert db i.txid ⟨updateOuts⟩
      utxoUpdateInputs db1 rest

/-- src/utxoset.rs, the transaction loop of Utxoset::update: spend the
inputs of each non-coinbase transaction, then insert the transaction's own
outputs wholesale under its id. -/
def utxoUpdateTxs (db : UtxoDb) : List Transaction → Option UtxoDb
  | [] => some db
  | tx :: rest =>
    match (if tx.is_coinbase then some db else utxoUpdateInputs db tx.vin) with
    | none => none
    | some db1 => utxoUpdateTxs (utxoInsert db1 tx.id ⟨tx.vout⟩) rest

/-- src/utxoset.rs, Utxoset::update over a block's transactions. -/
def utxoUpdate (db : UtxoDb) (block : Block) : Option UtxoDb :=
  utxoUpdateTxs db block.transactions

/-- The HashMap push of Utxoset::find_spendable_outputs: append an output
index to the entry of a txid, creating the entry when absent. -/
def fsoMapPush (m : List (String × List Int)) (txid : String) (idx : Int) :
    List (String × List Int) :=
  match m.lookup txid with
  | some _ => m.map (fun p => if p.1 == txid then (p.1, p.2 ++ [idx]) else p)
  | none => m ++ [(txid, [idx])]

/-- src/utxoset.rs, the inner output loop of find_spendable_outputs: an
output matching the address is taken only while the accumulated value is
still below the requested amount. -/
def fsoOuts (address : Bytes) (amount : Int) (txid : String) :
    List TXOutput → Nat → Int × List (String × List Int) →
      Int × List (String × List Int)
  | [], _, st => st
  | out :: rest, idx, (acc, m) =>
    if out.can_be_unlock_with address && decide (acc < amount) then
      fsoOuts address amount txid rest (idx + 1)
        (acc + out.value, fsoMapPush m txid (Int.ofNat idx))
    else fsoOuts address amount txid rest (idx + 1) (acc, m)

/-- src/utxoset.rs, the outer store loop of find_spendable_outputs. -/
def fsoEntries (address : Bytes) (amount : Int) :
    UtxoDb → Int × List (String × List Int) → Int × List (String × List Int)
  | [], st => st
  | (txid, outs) :: rest, st =>
    fsoEntries address amount rest (fsoOuts address amount txid outs.outputs 0 st)

/-- src/utxoset.rs, Utxoset::find_spendable_outputs. -/
def findSpendableOutputs (db : UtxoDb) (address : Bytes) (amount : Int) :
    Int × List (String × List Int) :=
  fsoEntries address amount db (0, [])

/-- Specification-side sum: the total value of the outputs of one entry
that match the address. -/
def outputsMatchSum (address : Bytes) : List TXOutput → Int
  | [] => 0
  | out :: rest =>
    if out.can_be_unlock_with address then out.value + outputsMatchSum address rest
    else outputsMatchSum address rest

/-- Specification-side sum: the total value of all stored outputs matching
the address. -/
def dbMatchSum (address : Bytes) : UtxoDb → Int
  | [] => 0
  | (_, outs) :: rest => outputsMatchSum address outs.outputs + dbMatchSum address rest

/-- The accumulated-value projection of the inner loop of
find_spendable_outputs (the output-index map does not influence it). -/
def accOuts (address : Bytes) (amount : Int) : List TXOutput → Int → Int
  | [], acc => acc
  | out :: rest, acc =>
    if out.can_be_unlock_with address && decide (acc < amount) then
      accOuts address amount rest (acc + out.value)
    else accOuts address amount rest acc

/-- The accumulated-value projection of the outer loop of
find_spendable_outputs. -/
def accDb (address : Bytes) (amount : Int) : UtxoDb → Int → Int
  | [], acc => acc
  | (_, outs) :: rest, acc =>
    accDb address amount rest (accOuts address amount outs.outputs acc)

/-- src/server.rs: VersionMsg. -/
structure VersionMsg where
  addr_from : String
  version : Int
  best_height : Int
deriving DecidableEq

/-- src/server.rs: BlockMsg. -/
structure BlockMsg where
  addr_from : String
  block : Block
deriving DecidableEq

/-- src/server.rs: GetBlockMsg. -/
structure GetBlockMsg where
  addr_from : String
deriving DecidableEq

/-- src/server.rs: GetDataMsg. -/
structure GetDataMsg where
  addr_from : String
  kind : String
  id : String
deriving DecidableEq

/-- src/server.rs: InvMsg. -/
structure InvMsg where
  addr_from : String
  kind : String
  items : List String
deriving DecidableEq

/-- src/server.rs: TxMsg. -/
structure TxMsg where
  addr_from : String
  transaction : Transaction
deriving DecidableEq

/-- src/server.rs: Message. -/
inductive Message where
  | Addr (a : List String)
  | Version (v : VersionMsg)
  | Tx (t : TxMsg)
  | GetData (g : GetDataMsg)
  | GetBlock (g : GetBlockMsg)
  | Inv (i : InvMsg)
  | Block (b : BlockMsg)
deriving DecidableEq

/-- The bincode payload decoders used by bytes_to_cmd, together with the
utf8 validity test of String::from_utf8; all are external-library
behaviour, so they are parameters of the model. -/
structure WireCodec where
  utf8Ok : Bytes → Bool
  deAddr : Bytes → Option (List String)
  deBlockMsg : Bytes → Option BlockMsg
  deGetBlock : Bytes → Option GetBlockMsg
  deGetData : Bytes → Option GetDataMsg
  deInv : Bytes → Option InvMsg
  deTx : Bytes → Option TxMsg
  deVersion : Bytes → Option VersionMsg

/-- The distinct results of bytes_to_cmd: a parsed message, the utf8
conversion error, a payload deserialization error, or the final
unknown-command error. -/
inductive CmdResult where
  | msg (m : Message)
  | utf8Error
  | deserializeError
  | unknownCommand
deriving DecidableEq

/-- src/server.rs: CMD_LEN. -/
def CMD_LEN : Nat := 12

/-- src/server.rs: the known command tags, in the order they are tried. -/
def knownTags : List String :=
  ["addr", "block", "getblock", "getdata", "inv", "tx", "version"]

/-- src/server.rs, bytes_to_cmd: the zero-byte stripping of the command
slice. -/
def stripCmd (bytes : Bytes) : Bytes :=
  (bytes.take CMD_LEN).filter (fun b => b != 0)

/-- src/server.rs, bytes_to_cmd after the command slice: the utf8
conversion of the logging line, then the tag comparisons in source order,
ending in the unknown-command error. -/
def dispatchCmd (W : WireCodec) (cmd data : Bytes) : Option CmdResult :=
  if !W.utf8Ok cmd then some .utf8Error
  else if cmd = strBytes "addr" then
      match W.deAddr data with
      | some d => some (.msg (.Addr d))
      | none => some .deserializeError
    else if cmd = strBytes "block" then
      match W.deBlockMsg data with
      | some d => some (.msg (.Block d))
      | none => some .deserializeError
    else if cmd = strBytes "getblock" then
      match W.deGetBlock data with
      | some d => some (.msg (.GetBlock d))
      | none => some .deserializeError
    else if cmd = strBytes "getdata" then
      match W.deGetData data with
      | some d => some (.msg (.GetData d))
      | none => some .deserializeError
    else if cmd = strBytes "inv" then
      match W.deInv data with
      | some d => some (.msg (.Inv d))
      | none => some .deserializeError
    else if cmd = strBytes "tx" then
      match W.deTx data with
      | some d => some (.msg (.Tx d))
      | none => some .deserializeError
    else if cmd = strBytes "version" then
      match W.deVersion data with
      | some d => some (.msg (.Version d))
      | none => some .deserializeError
    else some .unknownCommand

/-- src/server.rs, bytes_to_cmd.  The slice of the first CMD_LEN bytes
panics (none) on shorter input. -/
def bytesToCmd (W : WireCodec) (bytes : Bytes) : Option CmdResult :=
  if bytes.length < CMD_LEN then none
  else dispatchCmd W (stripCmd bytes) (bytes.drop CMD_LEN)

instance {ε α : Type} [DecidableEq ε] [DecidableEq α] : DecidableEq (Except ε α) := fun x y =>
  match x, y with
  | Except.ok a, Except.ok b =>
    if h : a = b then Decidable.isTrue (congrArg Except.ok h)
    else Decidable.isFalse (fun hh => h (Except.ok.inj hh))
  | Except.error a, Except.error b =>
    if h : a = b then Decidable.isTrue (congrArg Except.error h)
    else Decidable.isFalse (fun hh => h (Except.error.inj hh))
  | Except.ok _, Except.error _ => Decidable.isFalse (fun hh => Except.noConfusion hh)
  | Except.error _, Except.ok _ => Decidable.isFalse (fun hh => Except.noConfusion hh)

/-- The trimmed form of one input (the map body of trim_copy). -/
def trimIn (i : TXInput) : TXInput :=
  { txid := i.txid, vout := i.vout, signature := [], pub_key := [] }

/-- The pub_key_hash that the signing and verification loops stamp into an
input's slot: the hash locked into the producing output it claims (empty
when the lookup or the index would fail). -/
def stampOf (prev : TxMap) (i : TXInput) : Bytes :=
  match prev.lookup i.txid with
  | none => []
  | some prevTx =>
    match prevTx.vout.get? (asUsize i.vout) with
    | none => []
    | some out => out.pub_key_hash

/-- A trimmed input carrying its stamp. -/
def stampIn (prev : TxMap) (i : TXInput) : TXInput :=
  { txid := i.txid, vout := i.vout, signature := [], pub_key := stampOf prev i }

/-- The trimmed input list with the first k slots stamped: the state the
verification inner loop reaches after k iterations, since it never clears
a stamp. -/
def stampVin (prev : TxMap) : List TXInput → Nat → List TXInput
  | [], _ => []
  | i :: rest, 0 => trimIn i :: stampVin prev rest 0
  | i :: rest, k + 1 => stampIn prev i :: stampVin prev rest k

/-- The trimmed output list of trim_copy. -/
def trimmedVout (t : Transaction) : List TXOutput :=
  t.vout.map fun o => { value := o.value, pub_key_hash := o.pub_key_hash }

/-- The digest the verification inner loop signs off for slot j: the
trimmed copy with slots 0..j stamped and a blank id. -/
def verifyMsg (C : Crypto) (prev : TxMap) (t : Transaction) (j : Nat) : String :=
  C.txHash { id := "", vin := stampVin prev t.vin (j + 1), vout := trimmedVout t }

/-- The Ed25519 check the verification inner loop performs for slot j. -/
def checkAt (C : Crypto) (prev : TxMap) (t : Transaction) (j : Nat) : Bool :=
  match t.vin.get? j with
  | none => true
  | some si => ed25519Verify (verifyMsg C prev t j) si.pub_key si.signature

/-- Well-formedness of a previous-transaction map for a transaction: every
input finds its producing transaction, with a nonempty id and a valid
output index. -/
def PrevOk (prev : TxMap) (t : Transaction) : Prop :=
  ∀ i ∈ t.vin, ∃ prevTx, prev.lookup i.txid = some prevTx ∧ prevTx.id ≠ "" ∧
    asUsize i.vout < prevTx.vout.length

/-- A concrete stand-in for the SHA-256 hex digest of a byte string, used
to instantiate the Crypto oracle on concrete inputs: an injective decimal
rendering. -/
def encBytes (b : Bytes) : String := String.intercalate "." (b.map toString)

/-- Concrete rendering of an input for the concrete transaction digest. -/
def encInput (i : TXInput) : String :=
  "I(" ++ i.txid ++ ";" ++ toString i.vout ++ ";" ++ encBytes i.signature ++
    ";" ++ encBytes i.pub_key ++ ")"

/-- Concrete rendering of an output for the concrete transaction digest. -/
def encOutput (o : TXOutput) : String :=
  "O(" ++ toString o.value ++ ";" ++ encBytes o.pub_key_hash ++ ")"

/-- A concrete stand-in for the SHA-256 hex digest of the bincode
serialization of a transaction: a delimiter-separated rendering of its
fields, distinguishing every pair of transactions that arises below. -/
def txEncode (t : Transaction) : String :=
  "T(" ++ t.id ++ ";" ++ String.intercalate "," (t.vin.map encInput) ++ ";" ++
    String.intercalate "," (t.vout.map encOutput) ++ ")"

/-- A concrete Crypto oracle for evaluating the model on concrete
inputs. -/
def cryptoC : Crypto :=
  { sha256Hex := encBytes, sha256Bytes := id, txHash := txEncode }

/-- A degenerate Crypto oracle whose hex digest is the constant string
0000, letting proof-of-work succeed immediately on concrete inputs. -/
def cryptoPow : Crypto :=
  { sha256Hex := fun _ => "0000", sha256Bytes := fun _ => [], txHash := fun _ => "" }

/-- Concrete previous transaction with two outputs locked to the hashes
[1] and [2]. -/
def c1prevTx : Transaction :=
  { id := "p", vin := [], vout := [⟨10, [1]⟩, ⟨20, [2]⟩] }

/-- Concrete previous-transaction map holding c1prevTx under its id. -/
def c1prev : TxMap := [("p", c1prevTx)]

/-- Concrete two-input transaction spending both outputs of c1prevTx,
both inputs carrying the public key of the secret key [7]. -/
def c1tx : Transaction :=
  { id := "x"
    vin := [⟨"p", 0, [], pubOf [7]⟩, ⟨"p", 1, [], pubOf [7]⟩]
    vout := [⟨30, [3]⟩] }

/-- The result of signing c1tx with the secret key [7]. -/
def c1signed : Transaction :=
  match Transaction.sign cryptoC c1tx [7] c1prev with
  | some (Except.ok t) => t
  | _ => c1tx

/-- Concrete mined block fixture for the proof-of-work witness. -/
def c2block : Block :=
  { timestamp := 0, transactions := [], prev_block_hash := "", hash := "0000",
    height := 0, nonce := 0 }

/-- Concrete genesis-like block fixture. -/
def c3genesis : Block :=
  { timestamp := 0, transactions := [], prev_block_hash := "", hash := "g",
    height := 0, nonce := 0 }

/-- Concrete chain state whose LAST points at c3genesis. -/
def c3bc : BlockChain :=
  { current_hash := "g", db := [("LAST", .str "g"), ("g", .blk c3genesis)] }

/-- The block mined on top of c3bc by the degenerate oracle. -/
def c3mined : Block :=
  { timestamp := 0, transactions := [], prev_block_hash := "g", hash := "0000",
    height := 1, nonce := 0 }

/-- Concrete on-chain transaction with one output locked to [1]. -/
def c4prevTx : Transaction :=
  { id := "p", vin := [⟨"", -1, [], []⟩], vout := [⟨100, [1]⟩] }

/-- Concrete block holding c4prevTx. -/
def c4blk : Block :=
  { timestamp := 0, transactions := [c4prevTx], prev_block_hash := "",
    hash := "b1", height := 0, nonce := 0 }

/-- Concrete chain state holding c4blk at the tip. -/
def c4bc : BlockChain :=
  { current_hash := "b1", db := [("LAST", .str "b1"), ("b1", .blk c4blk)] }

/-- Concrete transaction whose input claims the out-of-range output 5 of
c4prevTx: its verification panics on the output indexing. -/
def c4tx1 : Transaction :=
  { id := "t1", vin := [⟨"p", 5, [], []⟩], vout := [] }

/-- Concrete transaction spending output 0 of c4prevTx with a garbage
signature: its verification returns Ok(false). -/
def c4tx2 : Transaction :=
  { id := "t2", vin := [⟨"p", 0, [9, 9], [3]⟩], vout := [] }

/-- Concrete block fixture for the add_block witness. -/
def c5block : Block :=
  { timestamp := 0, transactions := [], prev_block_hash := "", hash := "h",
    height := 0, nonce := 0 }

/-- Concrete chain state that already stores c5block. -/
def c5bc : BlockChain :=
  { current_hash := "h", db := [("h", .blk c5block), ("LAST", .str "h")] }

/-- Concrete UTXO store with a positive and a negative output locked to
the hash [1]. -/
def c6db : UtxoDb := [("t1", ⟨[⟨2, [1]⟩, ⟨-5, [1]⟩]⟩)]

/-- Concrete UTXO store with a single output of value 100 locked to [1]. -/
def c6dbPos : UtxoDb := [("t", ⟨[⟨100, [1]⟩]⟩)]

/-- Concrete non-coinbase transaction whose only input references the
absent txid zz. -/
def c7tx : Transaction :=
  { id := "z", vin := [⟨"zz", 0, [], []⟩], vout := [] }

/-- Concrete coinbase transaction. -/
def c7cb : Transaction :=
  { id := "c", vin := [⟨"", -1, [], []⟩], vout := [⟨100, [1]⟩] }

/-- Concrete coinbase whose id A is spent inside the same block. -/
def c8cbA : Transaction :=
  { id := "A", vin := [⟨"", -1, [], []⟩], vout := [⟨100, [1]⟩] }

/-- Concrete transaction spending output 0 of c8cbA. -/
def c8txB : Transaction :=
  { id := "B", vin := [⟨"A", 0, [], []⟩], vout := [⟨100, [2]⟩] }

/-- Concrete block with an intra-block spend: c8txB consumes the entry
that processing c8cbA inserts. -/
def c8blk : Block :=
  { timestamp := 0, transactions := [c8cbA, c8txB], prev_block_hash := "",
    hash := "h8", height := 1, nonce := 0 }

/-- Concrete transaction spending the absent txid Z, in a block on its
own. -/
def c8txZ : Transaction :=
  { id := "B", vin := [⟨"Z", 0, [], []⟩], vout := [] }

/-- Concrete block holding only c8txZ. -/
def c8blkZ : Block :=
  { timestamp := 0, transactions := [c8txZ], prev_block_hash := "",
    hash := "h9", height := 1, nonce := 0 }

/-- A trivial wire codec whose payload decoders all fail and whose utf8
test always passes. -/
def W0 : WireCodec :=
  { utf8Ok := fun _ => true, deAddr := fun _ => none, deBlockMsg := fun _ => none,
    deGetBlock := fun _ => none, deGetData := fun _ => none, deInv := fun _ => none,
    deTx := fun _ => none, deVersion := fun _ => none }

end BRust

namespace BRust

/-- C1: for the concrete two-input transaction c1tx, correctly signed with
the secret key [7] matching both inputs' public keys over the concrete
oracle, verify returns Ok(false): the verification inner loop never clears
the stamp of the previous slot, so the slot-1 digest differs from the one
signed. -/
theorem c1_sign_verify_fails_on_two_inputs :
    Transaction.sign cryptoC c1tx [7] c1prev = some (Except.ok c1signed) ∧
    c1signed.is_coinbase = false ∧
    c1signed.vin.length = 2 ∧
    Transaction.verify cryptoC c1signed c1prev = some (Except.ok false) := by
  refine ⟨rfl, rfl, rfl, ?_⟩
  decide

/-- C9: Transaction.hash returns the digest of the serialization with a
blanked id and leaves the receiver with id set to the empty string, vin
and vout unchanged. -/
theorem c9_hash_blanks_id (C : Crypto) (t : Transaction) :
    (Transaction.hash C t).1 = C.txHash { id := "", vin := t.vin, vout := t.vout } ∧
    (Transaction.hash C t).2.id = "" ∧
    (Transaction.hash C t).2.vin = t.vin ∧
    (Transaction.hash C t).2.vout = t.vout :=
  ⟨rfl, rfl, rfl, rfl⟩

/-- C5: add_block on a block whose hash is already a key of the store
returns Ok and leaves the whole state (store and in-memory tip) exactly
unchanged. -/
theorem c5_add_block_idempotent (bc : BlockChain) (b : Block)
    (h : ∃ v, dbGet bc.db b.hash = some v) :
    addBlock bc b = (some (Except.ok ()), bc) := by
  obtain ⟨v, hv⟩ := h
  simp only [addBlock, hv]

/-- Witness for c5_add_block_idempotent at the concrete state c5bc. -/
theorem c5_add_block_idempotent_witness :
    addBlock c5bc c5block = (some (Except.ok ()), c5bc) :=
  c5_add_block_idempotent c5bc c5block ⟨.blk c5block, rfl⟩

/-- Helper: an unknown-command result forces the stripped command to
differ from every known tag. -/
theorem dispatchCmd_unknown (W : WireCodec) (cmd data : Bytes)
    (h : dispatchCmd W cmd data = some CmdResult.unknownCommand) :
    ∀ tag ∈ knownTags, cmd ≠ strBytes tag := by
  unfold dispatchCmd at h
  split at h
  · exact absurd h (by simp)
  by_cases h1 : cmd = strBytes "addr"
  · rw [if_pos h1] at h; split at h <;> simp at h
  rw [if_neg h1] at h
  by_cases h2 : cmd = strBytes "block"
  · rw [if_pos h2] at h; split at h <;> simp at h
  rw [if_neg h2] at h
  by_cases h3 : cmd = strBytes "getblock"
  · rw [if_pos h3] at h; split at h <;> simp at h
  rw [if_neg h3] at h
  by_cases h4 : cmd = strBytes "getdata"
  · rw [if_pos h4] at h; split at h <;> simp at h
  rw [if_neg h4] at h
  by_cases h5 : cmd = strBytes "inv"
  · rw [if_pos h5] at h; split at h <;> simp at h
  rw [if_neg h5] at h
  by_cases h6 : cmd = strBytes "tx"
  · rw [if_pos h6] at h; split at h <;> simp at h
  rw [if_neg h6] at h
  by_cases h7 : cmd = strBytes "version"
  · rw [if_pos h7] at h; split at h <;> simp at h
  intro tag htag
  simp only [knownTags, List.mem_cons, List.not_mem_nil, or_false] at htag
  rcases htag with rfl | rfl | rfl | rfl | rfl | rfl | rfl <;> assumption

/-- C10: every input shorter than 12 bytes makes bytes_to_cmd panic on the
command slice (none), and the unknown-command error is reached only for
inputs of at least 12 bytes whose zero-stripped command matches no known
tag. -/
theorem c10_bytes_to_cmd_partiality :
    (∀ (W : WireCodec) (bytes : Bytes), bytes.length < CMD_LEN → bytesToCmd W bytes = none) ∧
    (∀ (W : WireCodec) (bytes : Bytes), bytesToCmd W bytes = some CmdResult.unknownCommand →
      CMD_LEN ≤ bytes.length ∧ ∀ tag ∈ knownTags, stripCmd bytes ≠ strBytes tag) := by
  constructor
  · intro W bytes h
    simp [bytesToCmd, h]
  · intro W bytes h
    unfold bytesToCmd at h
    split at h
    · exact absurd h (by simp)
    next hlen =>
      exact ⟨by omega, dispatchCmd_unknown W _ _ h⟩

/-- Witness for c10_bytes_to_cmd_partiality: a 5-byte frame panics, and a
12-byte frame with command zzz reaches the unknown-command error. -/
theorem c10_bytes_to_cmd_partiality_witness :
    bytesToCmd W0 [1, 2, 3, 4, 5] = none ∧
    (CMD_LEN ≤ ([122, 122, 122, 0, 0, 0, 0, 0, 0, 0, 0, 0] : Bytes).length ∧
      ∀ tag ∈ knownTags,
        stripCmd ([122, 122, 122, 0, 0, 0, 0, 0, 0, 0, 0, 0] : Bytes) ≠ strBytes tag) :=
  ⟨c10_bytes_to_cmd_partiality.1 W0 [1, 2, 3, 4, 5] (by decide),
   c10_bytes_to_cmd_partiality.2 W0 [122, 122, 122, 0, 0, 0, 0, 0, 0, 0, 0, 0] (by decide)⟩

/-- Proof-of-work preserves the non-hash fields and establishes the hash
equation and the difficulty prefix. -/
theorem runProofOfWork_spec (C : Crypto) (fuel : Nat) :
    ∀ (b0 b : Block), runProofOfWork C fuel b0 = some b →
      b.timestamp = b0.timestamp ∧ b.transactions = b0.transactions ∧
      b.prev_block_hash = b0.prev_block_hash ∧ b.height = b0.height ∧
      b.hash = C.sha256Hex (b.prepare_hash_data C) ∧
      b.hash.take TARGET_HEXT = "0000" := by
  induction fuel with
  | zero => intro b0 b h; simp [runProofOfWork] at h
  | succ n ih =>
    intro b0 b h
    rw [runProofOfWork] at h
    split at h
    next hval =>
      injection h with h
      subst h
      simp only [Block.validate] at hval
      refine ⟨rfl, rfl, rfl, rfl, rfl, ?_⟩
      exact eq_of_beq hval
    next hval =>
      have := ih _ b h
      exact ⟨this.1, this.2.1, this.2.2.1, this.2.2.2.1, this.2.2.2.2⟩

/-- C2: every block produced by new_block has a hash whose first 4 hex
characters are all the zero character, and that hash is the SHA-256 hex
digest of the serialized tuple of its stored prev_block_hash, merkle root,
timestamp, difficulty 4 and nonce. -/
theorem c2_pow_postcondition (C : Crypto) (fuel ts : Nat) (data : List Transaction)
    (prev : String) (height : Int) (b : Block)
    (h : newBlock C fuel ts data prev height = some b) :
    b.hash.take 4 = "0000" ∧
    b.hash = C.sha256Hex (b.prepare_hash_data C) := by
  have hs := runProofOfWork_spec C fuel _ b h
  exact ⟨hs.2.2.2.2.2, hs.2.2.2.2.1⟩

/-- Witness for c2_pow_postcondition with the degenerate oracle. -/
theorem c2_pow_postcondition_witness :
    c2block.hash.take 4 = "0000" ∧
    c2block.hash = cryptoPow.sha256Hex (c2block.prepare_hash_data cryptoPow) :=
  c2_pow_postcondition cryptoPow 1 0 [] "" 0 c2block (by decide)

/-- Lookup ignores entries filtered out at a different key. -/
theorem lookup_filter_ne {β : Type} (db : List (String × β)) (k k' : String)
    (h : k' ≠ k) :
    (db.filter (fun p => p.1 != k)).lookup k' = db.lookup k' := by
  induction db with
  | nil => rfl
  | cons a rest ih =>
    rcases a with ⟨ka, va⟩
    by_cases ha : ka = k
    · subst ha
      have hne : (k' == ka) = false := by simp [h]
      simp [List.filter_cons, List.lookup, hne, ih]
    · have hkeep : ((ka, va).1 != k) = true := by simp [ha]
      by_cases hk' : k' = ka
      · subst hk'
        simp [List.filter_cons, hkeep, List.lookup]
      · have hne : (k' == ka) = false := by simp [hk']
        simp [List.filter_cons, hkeep, List.lookup, hne, ih]

/-- Reading back the key just inserted. -/
theorem dbGet_dbInsert_self (db : Db) (k : String) (v : DbVal) :
    dbGet (dbInsert db k v) k = some v := by
  simp [dbGet, dbInsert, List.lookup]

/-- Reading another key after an insertion. -/
theorem dbGet_dbInsert_ne (db : Db) (k : String) (v : DbVal) (k' : String)
    (h : k' ≠ k) :
    dbGet (dbInsert db k v) k' = dbGet db k' := by
  have hne : (k' == k) = false := by simp [h]
  simp [dbGet, dbInsert, List.lookup, hne, lookup_filter_ne _ _ _ h]

/-- C3: whenever mine_block returns Ok on a store whose LAST key is
present, the best height afterwards is its prior value plus exactly 1,
LAST holds the new block's hash, and the returned block's prev_block_hash
is the previous tip hash.  The hypothesis that the new hash differs from
the literal key LAST holds for every real SHA-256 hex digest (64
characters). -/
theorem c3_mine_block_postcondition (C : Crypto) (bc : BlockChain)
    (iterFuel powFuel ts : Nat) (txs : List Transaction) (b : Block)
    (_hlast : ∃ v, dbGet bc.db "LAST" = some v)
    (hkey : b.hash ≠ "LAST")
    (hok : (mineBlock C bc iterFuel powFuel ts txs).1 = some (Except.ok b)) :
    ∃ bestH prevHash,
      getBestHeight bc = some (Except.ok bestH) ∧
      dbGet bc.db "LAST" = some (DbVal.str prevHash) ∧
      b.prev_block_hash = prevHash ∧
      getBestHeight (mineBlock C bc iterFuel powFuel ts txs).2 = some (Except.ok (bestH + 1)) ∧
      dbGet (mineBlock C bc iterFuel powFuel ts txs).2.db "LAST" = some (DbVal.str b.hash) := by
  clear _hlast
  unfold mineBlock at hok
  rcases hcheck : mineBlockCheckTxs C bc iterFuel txs with _ | e | u
  · simp only [hcheck] at hok; exact absurd hok (by simp)
  · simp only [hcheck] at hok; exact absurd hok (by simp)
  rcases u
  simp only [hcheck] at hok
  rcases hlastv : dbGet bc.db "LAST" with _ | v
  · simp only [hlastv] at hok; exact absurd hok (by simp)
  rcases v with b' | s
  · simp only [hlastv, dbValAsKey] at hok; exact absurd hok (by simp)
  simp only [hlastv, dbValAsKey] at hok
  rcases hbest : getBestHeight bc with _ | e | H
  · simp only [hbest] at hok; exact absurd hok (by simp)
  · simp only [hbest] at hok; exact absurd hok (by simp)
  simp only [hbest] at hok
  rcases hnb : newBlock C powFuel ts txs s (H + 1) with _ | nb
  · simp only [hnb] at hok; exact absurd hok (by simp)
  simp only [hnb, Option.some_inj] at hok
  have hb : nb = b := Except.ok.inj hok
  subst hb
  have hspec := runProofOfWork_spec C powFuel _ nb hnb
  have hstate : (mineBlock C bc iterFuel powFuel ts txs).2 =
      { current_hash := nb.hash,
        db := dbInsert (dbInsert bc.db nb.hash (.blk nb)) "LAST" (.str nb.hash) } := by
    unfold mineBlock
    simp only [hcheck, hlastv, dbValAsKey, hbest, hnb]
  refine ⟨H, s, rfl, rfl, hspec.2.2.1, ?_, ?_⟩
  · rw [hstate]
    simp only [getBestHeight, dbGet_dbInsert_self, dbValAsKey,
      dbGet_dbInsert_ne _ _ _ _ hkey]
    rw [hspec.2.2.2.1]
  · rw [hstate]
    simp only [dbGet_dbInsert_self]

/-- Witness for c3_mine_block_postcondition on the concrete chain c3bc. -/
theorem c3_mine_block_postcondition_witness :
    ∃ bestH prevHash,
      getBestHeight c3bc = some (Except.ok bestH) ∧
      dbGet c3bc.db "LAST" = some (DbVal.str prevHash) ∧
      c3mined.prev_block_hash = prevHash ∧
      getBestHeight (mineBlock cryptoPow c3bc 1 1 0 []).2 = some (Except.ok (bestH + 1)) ∧
      dbGet (mineBlock cryptoPow c3bc 1 1 0 []).2.db "LAST" = some (DbVal.str c3mined.hash) :=
  c3_mine_block_postcondition cryptoPow c3bc 1 1 0 [] c3mined
    ⟨.str "g", rfl⟩ (by decide) (by decide)

/-- C4 counterexample: the list [c4tx1, c4tx2] contains a transaction
failing verification (c4tx2, Ok(false)), yet mine_block does not return an
error: verification of the earlier c4tx1 panics on an out-of-range output
index, so the call panics (none). -/
theorem c4_mine_block_counterexample :
    verifyTransaction cryptoC c4bc 1 c4tx2 = some (Except.ok false) ∧
    c4tx2 ∈ [c4tx1, c4tx2] ∧
    verifyTransaction cryptoC c4bc 1 c4tx1 = none ∧
    (mineBlock cryptoC c4bc 1 1 0 [c4tx1, c4tx2]).1 = none := by
  refine ⟨by decide, by decide, by decide, by decide⟩

/-- Helper: the verification loop of mine_block reports the first cleanly
failing transaction. -/
theorem mineBlockCheckTxs_fail (C : Crypto) (bc : BlockChain) (fuel : Nat) :
    ∀ (pre : List Transaction) (tx : Transaction) (post : List Transaction),
      (∀ t ∈ pre, verifyTransaction C bc fuel t = some (Except.ok true)) →
      verifyTransaction C bc fuel tx = some (Except.ok false) →
      mineBlockCheckTxs C bc fuel (pre ++ tx :: post) =
        some (Except.error ("Transaction is not valid: " ++ tx.id)) := by
  intro pre
  induction pre with
  | nil =>
    intro tx post _ hfail
    simp only [List.nil_append, mineBlockCheckTxs, hfail]
  | cons t rest ih =>
    intro tx post hpre hfail
    have ht : verifyTransaction C bc fuel t = some (Except.ok true) := hpre t (by simp)
    simp only [List.cons_append, mineBlockCheckTxs, ht]
    exact ih tx post (fun u hu => hpre u (by simp [hu])) hfail

/-- C4 amended: when the first transaction of txs that does not verify as
true fails cleanly with Ok(false) (every transaction before it verifying
as true), mine_block returns the invalid-transaction error and performs no
store write: the returned state is exactly the input state. -/
theorem c4_mine_block_error_atomicity (C : Crypto) (bc : BlockChain)
    (iterFuel powFuel ts : Nat) (pre post : List Transaction) (tx : Transaction)
    (hpre : ∀ t ∈ pre, verifyTransaction C bc iterFuel t = some (Except.ok true))
    (hfail : verifyTransaction C bc iterFuel tx = some (Except.ok false)) :
    (mineBlock C bc iterFuel powFuel ts (pre ++ tx :: post)).1 =
      some (Except.error ("Transaction is not valid: " ++ tx.id)) ∧
    (mineBlock C bc iterFuel powFuel ts (pre ++ tx :: post)).2 = bc := by
  have hcheck := mineBlockCheckTxs_fail C bc iterFuel pre tx post hpre hfail
  unfold mineBlock
  rw [hcheck]
  exact ⟨rfl, rfl⟩

/-- Witness for c4_mine_block_error_atomicity on the concrete chain. -/
theorem c4_mine_block_error_atomicity_witness :
    (mineBlock cryptoC c4bc 1 1 0 ([] ++ c4tx2 :: [])).1 =
      some (Except.error ("Transaction is not valid: " ++ c4tx2.id)) ∧
    (mineBlock cryptoC c4bc 1 1 0 ([] ++ c4tx2 :: [])).2 = c4bc :=
  c4_mine_block_error_atomicity cryptoC c4bc 1 1 0 [] [] c4tx2 (by simp) (by decide)

end BRust

namespace BRust

/-- The index map does not influence the accumulated value of the inner
loop. -/
theorem fsoOuts_fst (address : Bytes) (amount : Int) (txid : String) :
    ∀ (outs : List TXOutput) (idx : Nat) (acc : Int) (m : List (String × List Int)),
      (fsoOuts address amount txid outs idx (acc, m)).1 = accOuts address amount outs acc := by
  intro outs
  induction outs with
  | nil => intro idx acc m; rfl
  | cons out rest ih =>
    intro idx acc m
    simp only [fsoOuts, accOuts]
    split
    · exact ih (idx + 1) (acc + out.value) _
    · exact ih (idx + 1) acc m

/-- The index map does not influence the accumulated value of the outer
loop. -/
theorem fsoEntries_fst (address : Bytes) (amount : Int) :
    ∀ (db : UtxoDb) (acc : Int) (m : List (String × List Int)),
      (fsoEntries address amount db (acc, m)).1 = accDb address amount db acc := by
  intro db
  induction db with
  | nil => intro acc m; rfl
  | cons p rest ih =>
    intro acc m
    rcases p with ⟨txid, outs⟩
    simp only [fsoEntries, accDb]
    rcases hst : fsoOuts address amount txid outs.outputs 0 (acc, m) with ⟨acc1, m1⟩
    have h1 : acc1 = accOuts address amount outs.outputs acc := by
      have hf := fsoOuts_fst address amount txid outs.outputs 0 acc m
      rw [hst] at hf
      exact hf
    rw [ih acc1 m1, h1]

/-- The accumulated value of find_spendable_outputs. -/
theorem findSpendableOutputs_fst (db : UtxoDb) (address : Bytes) (amount : Int) :
    (findSpendableOutputs db address amount).1 = accDb address amount db 0 :=
  fsoEntries_fst address amount db 0 []

/-- With nonnegative output values the accumulator never decreases. -/
theorem accOuts_ge (address : Bytes) (amount : Int) :
    ∀ (outs : List TXOutput) (acc : Int),
      (∀ o ∈ outs, 0 ≤ o.value) → acc ≤ accOuts address amount outs acc := by
  intro outs
  induction outs with
  | nil => intro acc _; simp [accOuts]
  | cons out rest ih =>
    intro acc h
    have h0 : 0 ≤ out.value := h out (by simp)
    have hr : ∀ o ∈ rest, 0 ≤ o.value := fun o ho => h o (by simp [ho])
    simp only [accOuts]
    split
    · have := ih (acc + out.value) hr
      omega
    · exact ih acc hr

/-- With nonnegative output values the accumulator is bounded by the sum
of the matching outputs. -/
theorem accOuts_le (address : Bytes) (amount : Int) :
    ∀ (outs : List TXOutput) (acc : Int),
      (∀ o ∈ outs, 0 ≤ o.value) →
      accOuts address amount outs acc ≤ acc + outputsMatchSum address outs := by
  intro outs
  induction outs with
  | nil => intro acc _; simp [accOuts, outputsMatchSum]
  | cons out rest ih =>
    intro acc h
    have h0 : 0 ≤ out.value := h out (by simp)
    have hr : ∀ o ∈ rest, 0 ≤ o.value := fun o ho => h o (by simp [ho])
    rcases Bool.eq_false_or_eq_true (out.can_be_unlock_with address) with hm | hm
    · by_cases hlt : acc < amount
      · have hd : decide (acc < amount) = true := decide_eq_true hlt
        simp [accOuts, outputsMatchSum, hm, hd]
        have := ih (acc + out.value) hr
        omega
      · have hd : decide (acc < amount) = false := decide_eq_false hlt
        simp [accOuts, outputsMatchSum, hm, hd]
        have := ih acc hr
        omega
    · simp only [accOuts, outputsMatchSum, hm, Bool.false_and, Bool.false_eq_true,
        if_false]
      exact ih acc hr

/-- With nonnegative output values, an accumulator that stays below the
amount collects every matching output exactly. -/
theorem accOuts_eq_of_lt (address : Bytes) (amount : Int) :
    ∀ (outs : List TXOutput) (acc : Int),
      (∀ o ∈ outs, 0 ≤ o.value) →
      accOuts address amount outs acc < amount →
      accOuts address amount outs acc = acc + outputsMatchSum address outs := by
  intro outs
  induction outs with
  | nil => intro acc _ _; simp [accOuts, outputsMatchSum]
  | cons out rest ih =>
    intro acc h hlt
    have h0 : 0 ≤ out.value := h out (by simp)
    have hr : ∀ o ∈ rest, 0 ≤ o.value := fun o ho => h o (by simp [ho])
    rcases Bool.eq_false_or_eq_true (out.can_be_unlock_with address) with hm | hm
    · by_cases hacc : acc < amount
      · have hd : decide (acc < amount) = true := decide_eq_true hacc
        simp [accOuts, outputsMatchSum, hm, hd] at hlt ⊢
        have := ih (acc + out.value) hr hlt
        omega
      · have hd : decide (acc < amount) = false := decide_eq_false hacc
        simp [accOuts, hm, hd] at hlt
        have := accOuts_ge address amount rest acc hr
        omega
    · simp only [accOuts, outputsMatchSum, hm, Bool.false_and, Bool.false_eq_true,
        if_false] at hlt ⊢
      exact ih acc hr hlt

/-- Store-level version of accOuts_ge. -/
theorem accDb_ge (address : Bytes) (amount : Int) :
    ∀ (db : UtxoDb) (acc : Int),
      (∀ p ∈ db, ∀ o ∈ p.2.outputs, 0 ≤ o.value) → acc ≤ accDb address amount db acc := by
  intro db
  induction db with
  | nil => intro acc _; simp [accDb]
  | cons p rest ih =>
    intro acc h
    rcases p with ⟨txid, outs⟩
    have h1 : ∀ o ∈ outs.outputs, 0 ≤ o.value := fun o ho => h (txid, outs) (by simp) o ho
    have hr : ∀ q ∈ rest, ∀ o ∈ q.2.outputs, 0 ≤ o.value :=
      fun q hq o ho => h q (by simp [hq]) o ho
    simp only [accDb]
    have ha := accOuts_ge address amount outs.outputs acc h1
    have hb := ih (accOuts address amount outs.outputs acc) hr
    omega

/-- Store-level version of accOuts_le. -/
theorem accDb_le (address : Bytes) (amount : Int) :
    ∀ (db : UtxoDb) (acc : Int),
      (∀ p ∈ db, ∀ o ∈ p.2.outputs, 0 ≤ o.value) →
      accDb address amount db acc ≤ acc + dbMatchSum address db := by
  intro db
  induction db with
  | nil => intro acc _; simp [accDb, dbMatchSum]
  | cons p rest ih =>
    intro acc h
    rcases p with ⟨txid, outs⟩
    have h1 : ∀ o ∈ outs.outputs, 0 ≤ o.value := fun o ho => h (txid, outs) (by simp) o ho
    have hr : ∀ q ∈ rest, ∀ o ∈ q.2.outputs, 0 ≤ o.value :=
      fun q hq o ho => h q (by simp [hq]) o ho
    simp only [accDb, dbMatchSum]
    have ha := accOuts_le address amount outs.outputs acc h1
    have hb := ih (accOuts address amount outs.outputs acc) hr
    omega

/-- Store-level version of accOuts_eq_of_lt. -/
theorem accDb_eq_of_lt (address : Bytes) (amount : Int) :
    ∀ (db : UtxoDb) (acc : Int),
      (∀ p ∈ db, ∀ o ∈ p.2.outputs, 0 ≤ o.value) →
      accDb address amount db acc < amount →
      accDb address amount db acc = acc + dbMatchSum address db := by
  intro db
  induction db with
  | nil => intro acc _ _; simp [accDb, dbMatchSum]
  | cons p rest ih =>
    intro acc h hlt
    rcases p with ⟨txid, outs⟩
    have h1 : ∀ o ∈ outs.outputs, 0 ≤ o.value := fun o ho => h (txid, outs) (by simp) o ho
    have hr : ∀ q ∈ rest, ∀ o ∈ q.2.outputs, 0 ≤ o.value :=
      fun q hq o ho => h q (by simp [hq]) o ho
    simp only [accDb, dbMatchSum] at hlt ⊢
    have hmid : accOuts address amount outs.outputs acc < amount := by
      have := accDb_ge address amount rest (accOuts address amount outs.outputs acc) hr
      omega
    have hone := accOuts_eq_of_lt address amount outs.outputs acc h1 hmid
    have := ih (accOuts address amount outs.outputs acc) hr hlt
    omega

/-- C6 amended: when every stored output value is nonnegative, the
accumulated value returned by find_spendable_outputs reaches the amount
exactly when the total value of all stored outputs matching the address
does. -/
theorem c6_find_spendable_outputs_iff (db : UtxoDb) (address : Bytes) (amount : Int)
    (hnn : ∀ p ∈ db, ∀ o ∈ p.2.outputs, 0 ≤ o.value) :
    ((findSpendableOutputs db address amount).1 ≥ amount ↔ dbMatchSum address db ≥ amount) := by
  rw [findSpendableOutputs_fst]
  constructor
  · intro h
    have := accDb_le address amount db 0 hnn
    omega
  · intro h
    by_contra hc
    have hlt : accDb address amount db 0 < amount := by omega
    have := accDb_eq_of_lt address amount db 0 hnn hlt
    omega

/-- Witness for c6_find_spendable_outputs_iff on a store with one output
of value 100. -/
theorem c6_find_spendable_outputs_iff_witness :
    ((findSpendableOutputs c6dbPos [1] 30).1 ≥ 30 ↔ dbMatchSum [1] c6dbPos ≥ 30) :=
  c6_find_spendable_outputs_iff c6dbPos [1] 30 (by decide)

/-- C6 counterexample: with a stored negative output value, the greedy
accumulator reaches the amount while the total matching sum does not, so
the claimed equivalence fails. -/
theorem c6_find_spendable_outputs_counterexample :
    (findSpendableOutputs c6db [1] 1).1 ≥ 1 ∧ ¬(dbMatchSum [1] c6db ≥ 1) := by
  decide

end BRust

namespace BRust

/-- A key found after filtering was present before. -/
theorem lookup_filter_isSome {β : Type} (p : String × β → Bool) :
    ∀ (db : List (String × β)) (x : String),
      ((db.filter p).lookup x).isSome = true → (db.lookup x).isSome = true := by
  intro db
  induction db with
  | nil => intro x h; simp at h
  | cons a rest ih =>
    intro x h
    rcases a with ⟨ka, va⟩
    by_cases hx : x = ka
    · subst hx
      simp [List.lookup]
    · have hne : (x == ka) = false := by simp [hx]
      by_cases hp : p (ka, va) = true
      · rw [List.filter_cons, if_pos hp] at h
        simp only [List.lookup, hne] at h
        simp only [List.lookup, hne]
        exact ih x h
      · rw [List.filter_cons, if_neg hp] at h
        simp only [List.lookup, hne]
        exact ih x h

/-- A key found after a UTXO insertion is the inserted key or was present
before. -/
theorem lookup_utxoInsert_isSome (db : UtxoDb) (k : String) (v : TXOutputs) (x : String)
    (h : ((utxoInsert db k v).lookup x).isSome = true) :
    x = k ∨ (db.lookup x).isSome = true := by
  by_cases hx : x = k
  · exact Or.inl hx
  · right
    have hne : (x == k) = false := by simp [hx]
    simp only [utxoInsert, List.lookup, hne] at h
    exact lookup_filter_isSome _ db x h

/-- A key found after a UTXO removal was present before. -/
theorem lookup_utxoRemove_isSome (db : UtxoDb) (k x : String)
    (h : ((utxoRemove db k).lookup x).isSome = true) :
    (db.lookup x).isSome = true :=
  lookup_filter_isSome _ db x h

/-- The input-spending loop of Utxoset::update succeeds only when every
input's txid is a key at its point of processing, and it never adds keys
that were not present. -/
theorem utxoUpdateInputs_sound :
    ∀ (vin : List TXInput) (db db' : UtxoDb),
      utxoUpdateInputs db vin = some db' →
      (∀ i ∈ vin, (db.lookup i.txid).isSome = true) ∧
      (∀ x, ((db'.lookup x).isSome = true) → (db.lookup x).isSome = true) := by
  intro vin
  induction vin with
  | nil =>
    intro db db' h
    simp only [utxoUpdateInputs, Option.some_inj] at h
    subst h
    exact ⟨by simp, fun x hx => hx⟩
  | cons i rest ih =>
    intro db db' h
    simp only [utxoUpdateInputs] at h
    rcases hl : db.lookup i.txid with _ | outs
    · simp only [hl] at h
      exact absurd h (by simp)
    · simp only [hl] at h
      by_cases hempty :
          (((outs.outputs.enum.filter (fun p => p.1 != asUsize i.vout)).map
            (fun p => p.2)).isEmpty = true)
      · rw [if_pos hempty] at h
        have hrec := ih (utxoRemove db i.txid) db' h
        refine ⟨?_, ?_⟩
        · intro j hj
          rcases List.mem_cons.mp hj with rfl | hj'
          · rw [hl]; rfl
          · exact lookup_utxoRemove_isSome db i.txid j.txid (hrec.1 j hj')
        · intro x hx
          exact lookup_utxoRemove_isSome db i.txid x (hrec.2 x hx)
      · rw [if_neg hempty] at h
        have hrec := ih (utxoInsert db i.txid
          ⟨(outs.outputs.enum.filter (fun p => p.1 != asUsize i.vout)).map
            (fun p => p.2)⟩) db' h
        refine ⟨?_, ?_⟩
        · intro j hj
          rcases List.mem_cons.mp hj with rfl | hj'
          · rw [hl]; rfl
          · rcases lookup_utxoInsert_isSome db i.txid _ j.txid (hrec.1 j hj') with he | hs
            · rw [he, hl]; rfl
            · exact hs
        · intro x hx
          rcases lookup_utxoInsert_isSome db i.txid _ x (hrec.2 x hx) with he | hs
          · rw [he, hl]; rfl
          · exact hs

/-- When Utxoset::update succeeds, every non-coinbase input's txid was a
key of the initial store or is the id of some transaction of the block. -/
theorem utxoUpdateTxs_sound :
    ∀ (txs : List Transaction) (db db' : UtxoDb),
      utxoUpdateTxs db txs = some db' →
      ∀ tx ∈ txs, tx.is_coinbase = false →
        ∀ i ∈ tx.vin, (db.lookup i.txid).isSome = true ∨
          i.txid ∈ txs.map Transaction.id := by
  intro txs
  induction txs with
  | nil => intro db db' h tx htx; simp at htx
  | cons t rest ih =>
    intro db db' h tx htx hcb i hi
    simp only [utxoUpdateTxs] at h
    rcases hd1 : (if t.is_coinbase then some db else utxoUpdateInputs db t.vin) with _ | db1
    · rw [hd1] at h; exact absurd h (by simp)
    rw [hd1] at h
    rcases List.mem_cons.mp htx with rfl | htx'
    · rw [if_neg (by simp [hcb])] at hd1
      left
      exact (utxoUpdateInputs_sound tx.vin db db1 hd1).1 i hi
    · have hsub1 : ∀ x, ((db1.lookup x).isSome = true) → (db.lookup x).isSome = true := by
        rcases Bool.eq_false_or_eq_true t.is_coinbase with hcb' | hcb'
        · rw [hcb', if_pos rfl, Option.some_inj] at hd1
          subst hd1
          exact fun x hx => hx
        · rw [hcb'] at hd1
          simp only [Bool.false_eq_true, if_false] at hd1
          exact (utxoUpdateInputs_sound t.vin db db1 hd1).2
      have hres := ih (utxoInsert db1 t.id ⟨t.vout⟩) db' h tx htx' hcb i hi
      rcases hres with hsome | hin
      · rcases lookup_utxoInsert_isSome db1 t.id _ i.txid hsome with he | hs
        · right
          simp [he]
        · exact Or.inl (hsub1 _ hs)
      · right
        simp only [List.map_cons, List.mem_cons]
        exact Or.inr (by simpa using hin)

/-- C8 amended: Utxoset::update panics (unwrap of None) whenever some
non-coinbase transaction of the block has an input whose txid is neither
a key of the store at call time nor the id of any transaction of the
block; there is no error return for a missing entry. -/
theorem c8_utxo_update_panics (db : UtxoDb) (block : Block) (tx : Transaction) (i : TXInput)
    (htx : tx ∈ block.transactions) (hcb : tx.is_coinbase = false)
    (hi : i ∈ tx.vin) (hmiss : db.lookup i.txid = none)
    (hnoid : ∀ tx2 ∈ block.transactions, tx2.id ≠ i.txid) :
    utxoUpdate db block = none := by
  rcases hres : utxoUpdate db block with _ | db'
  · rfl
  · exfalso
    have hsound := utxoUpdateTxs_sound block.transactions db db' hres tx htx hcb i hi
    rcases hsound with hsome | hin
    · rw [hmiss] at hsome
      exact absurd hsome (by simp)
    · rw [List.mem_map] at hin
      obtain ⟨t2, ht2, hid⟩ := hin
      exact hnoid t2 ht2 hid

/-- Witness for c8_utxo_update_panics: a block spending the absent txid Z
on the empty store makes update panic. -/
theorem c8_utxo_update_panics_witness :
    utxoUpdate [] c8blkZ = none :=
  c8_utxo_update_panics [] c8blkZ c8txZ ⟨"Z", 0, [], []⟩ (by decide) (by decide)
    (by decide) (by decide) (by decide)

/-- C8 counterexample: c8txB is non-coinbase and its input's txid A is not
a key of the empty store, yet update does not panic, because processing
the earlier coinbase of the same block inserts the entry for A first. -/
theorem c8_utxo_update_counterexample :
    c8txB.is_coinbase = false ∧
    c8txB ∈ c8blk.transactions ∧
    (([] : UtxoDb).lookup "A" = none ∧ ∃ i ∈ c8txB.vin, i.txid = "A") ∧
    utxoUpdate [] c8blk ≠ none := by
  decide

end BRust

namespace BRust

/-- stampVin preserves length. -/
theorem stampVin_length (prev : TxMap) :
    ∀ (l : List TXInput) (k : Nat), (stampVin prev l k).length = l.length := by
  intro l
  induction l with
  | nil => intro k; cases k <;> rfl
  | cons i rest ih =>
    intro k
    cases k with
    | zero => simp [stampVin, ih]
    | succ k => simp [stampVin, ih]

/-- With no stamps, stampVin is the trimmed input list. -/
theorem stampVin_zero (prev : TxMap) :
    ∀ (l : List TXInput), stampVin prev l 0 = l.map trimIn := by
  intro l
  induction l with
  | nil => rfl
  | cons i rest ih => simp [stampVin, ih]

/-- Elementwise description of stampVin. -/
theorem stampVin_get (prev : TxMap) :
    ∀ (l : List TXInput) (k j : Nat),
      (stampVin prev l k).get? j =
        (l.get? j).map (fun i => if j < k then stampIn prev i else trimIn i) := by
  intro l
  induction l with
  | nil => intro k j; cases k <;> simp [stampVin]
  | cons i rest ih =>
    intro k j
    cases k with
    | zero =>
      cases j with
      | zero => simp [stampVin]
      | succ j =>
        have h1 : (stampVin prev (i :: rest) 0).get? (j + 1) =
            (stampVin prev rest 0).get? j := rfl
        rw [h1, ih 0 j]
        simp
    | succ k =>
      cases j with
      | zero => simp [stampVin]
      | succ j =>
        have h1 : (stampVin prev (i :: rest) (k + 1)).get? (j + 1) =
            (stampVin prev rest k).get? j := rfl
        rw [h1, ih k j]
        by_cases hjk : j < k
        · simp [hjk, Nat.succ_lt_succ hjk]
        · have h2 : ¬(j + 1 < k + 1) := by omega
          simp [hjk, h2]

/-- Stamping slot k of a k-stamped list advances it to k+1 stamps. -/
theorem stampVin_set (prev : TxMap) :
    ∀ (l : List TXInput) (k : Nat) (i : TXInput), l.get? k = some i →
      (stampVin prev l k).set k (stampIn prev i) = stampVin prev l (k + 1) := by
  intro l
  induction l with
  | nil => intro k i h; simp at h
  | cons a rest ih =>
    intro k i h
    cases k with
    | zero =>
      have ha : a = i := by
        have : some a = some i := h
        exact Option.some.inj this
      subst ha
      rfl
    | succ k =>
      have h' : rest.get? k = some i := h
      have := ih k i h'
      simp [stampVin, List.set, this]

/-- The trimmed copy as a stamped list with no stamps. -/
theorem trim_copy_eq (prev : TxMap) (t : Transaction) :
    t.trim_copy = { id := t.id, vin := stampVin prev t.vin 0, vout := trimmedVout t } := by
  simp [Transaction.trim_copy, stampVin_zero, trimmedVout, trimIn]

/-- The verification inner loop computes the conjunction of the per-slot
checks over the accumulated stamped copy. -/
theorem verifyLoop_spec (C : Crypto) (prev : TxMap) (t : Transaction)
    (hwf : PrevOk prev t) :
    ∀ (m j : Nat), j + m = t.vin.length → ∀ (s : String),
      verifyLoop C prev t (List.range' j m)
        { id := s, vin := stampVin prev t.vin j, vout := trimmedVout t } =
      some (decide (∀ k, j ≤ k → k < t.vin.length → checkAt C prev t k = true)) := by
  intro m
  induction m with
  | zero =>
    intro j hj s
    have hall : (∀ k, j ≤ k → k < t.vin.length → checkAt C prev t k = true) := by
      intro k h1 h2
      omega
    rw [show List.range' j 0 = [] from rfl, verifyLoop, decide_eq_true hall]
  | succ m ih =>
    intro j hj s
    have hjlt : j < t.vin.length := by omega
    have hget : t.vin.get? j = some (t.vin.get ⟨j, hjlt⟩) := List.get?_eq_get hjlt
    set iorig := t.vin.get ⟨j, hjlt⟩ with hio
    have hmem : iorig ∈ t.vin := List.get_mem t.vin j hjlt
    obtain ⟨prevTx, hlk, hid, hvb⟩ := hwf iorig hmem
    have hout : prevTx.vout.get? (asUsize iorig.vout) =
        some (prevTx.vout.get ⟨asUsize iorig.vout, hvb⟩) := List.get?_eq_get hvb
    set out := prevTx.vout.get ⟨asUsize iorig.vout, hvb⟩ with hoo
    have hstamp : stampOf prev iorig = out.pub_key_hash := by
      simp only [stampOf, hlk, hout]
    have hchk : checkAt C prev t j =
        ed25519Verify (verifyMsg C prev t j) iorig.pub_key iorig.signature := by
      simp only [checkAt, hget]
    have hset : ((stampVin prev t.vin j).set j
        { txid := iorig.txid, vout := iorig.vout, signature := [],
          pub_key := out.pub_key_hash }) = stampVin prev t.vin (j + 1) := by
      have h1 : (⟨iorig.txid, iorig.vout, [], out.pub_key_hash⟩ : TXInput) =
          stampIn prev iorig := by
        rw [stampIn, hstamp]
      rw [h1]
      exact stampVin_set prev t.vin j iorig hget
    have hmsg : verifyMsg C prev t j =
        C.txHash { id := "",
                   vin := stampVin prev t.vin (j + 1),
                   vout := trimmedVout t } := rfl
    rw [List.range'_succ, verifyLoop]
    simp only [stampVin_get, hget, Option.map_some', lt_self_iff_false, if_false,
      trimIn, hlk, hout, hset, Transaction.hash]
    rw [← hmsg]
    rcases Bool.eq_false_or_eq_true
        (ed25519Verify (verifyMsg C prev t j) iorig.pub_key iorig.signature) with hc | hc
    · rw [if_pos hc]
      rw [ih (j + 1) (by omega)]
      have hcj : checkAt C prev t j = true := by rw [hchk]; exact hc
      have hiff : (∀ k, j + 1 ≤ k → k < t.vin.length → checkAt C prev t k = true) ↔
          (∀ k, j ≤ k → k < t.vin.length → checkAt C prev t k = true) := by
        constructor
        · intro ha k h1 h2
          rcases Nat.eq_or_lt_of_le h1 with he | hlt
          · rw [← he]
            exact hcj
          · exact ha k (by omega) h2
        · intro ha k h1 h2
          exact ha k (by omega) h2
      rw [decide_eq_decide.mpr hiff]
    · rw [hc]
      rw [if_neg (by simp)]
      have hdec : (decide (∀ k, j ≤ k → k < t.vin.length →
          checkAt C prev t k = true)) = false := by
        refine decide_eq_false ?_
        intro hall
        have hj2 := hall j (by omega) hjlt
        rw [hchk, hc] at hj2
        exact Bool.noConfusion hj2
      rw [hdec]

end BRust

namespace BRust

/-- The outer verification loop returns Ok true when every slot check
passes. -/
theorem verifyOuter_all (C : Crypto) (prev : TxMap) (t : Transaction)
    (hwf : PrevOk prev t)
    (hall : ∀ k, k < t.vin.length → checkAt C prev t k = true) :
    ∀ (ins : List TXInput),
      (∀ i ∈ ins, ∃ prevTx, prev.lookup i.txid = some prevTx ∧ prevTx.id ≠ "") →
      verifyOuter C prev t ins = some (Except.ok true) := by
  intro ins
  induction ins with
  | nil => intro _; rfl
  | cons i rest ih =>
    intro hins
    obtain ⟨prevTx, hlk, hid⟩ := hins i (by simp)
    have hbeq : (prevTx.id == "") = false := by simp [hid]
    rw [verifyOuter]
    simp only [hlk, hbeq, Bool.false_eq_true, if_false]
    rw [trim_copy_eq prev t]
    simp only [stampVin_length, List.range_eq_range']
    rw [verifyLoop_spec C prev t hwf t.vin.length 0 (by omega) t.id]
    rw [decide_eq_true (fun k _ h2 => hall k h2)]
    exact ih (fun i2 hi2 => hins i2 (by simp [hi2]))

/-- The outer verification loop returns Ok false on a nonempty input list
whose head finds its previous transaction, when some slot check fails. -/
theorem verifyOuter_false (C : Crypto) (prev : TxMap) (t : Transaction)
    (hwf : PrevOk prev t)
    (hnall : ¬(∀ k, k < t.vin.length → checkAt C prev t k = true))
    (i : TXInput) (rest : List TXInput)
    (hhead : ∃ prevTx, prev.lookup i.txid = some prevTx ∧ prevTx.id ≠ "") :
    verifyOuter C prev t (i :: rest) = some (Except.ok false) := by
  obtain ⟨prevTx, hlk, hid⟩ := hhead
  have hbeq : (prevTx.id == "") = false := by simp [hid]
  rw [verifyOuter]
  simp only [hlk, hbeq, Bool.false_eq_true, if_false]
  rw [trim_copy_eq prev t]
  simp only [stampVin_length, List.range_eq_range']
  rw [verifyLoop_spec C prev t hwf t.vin.length 0 (by omega) t.id]
  rw [decide_eq_false (fun hall => hnall (fun k h2 => hall k (by omega) h2))]

/-- Under a well-formed previous-transaction map, verify of a non-coinbase
transaction neither panics nor errors: it returns Ok of the conjunction of
the per-slot Ed25519 checks. -/
theorem verify_wf (C : Crypto) (prev : TxMap) (t : Transaction)
    (hcb : t.is_coinbase = false) (hwf : PrevOk prev t) :
    Transaction.verify C t prev =
      some (Except.ok (decide (∀ k, k < t.vin.length → checkAt C prev t k = true))) := by
  unfold Transaction.verify
  rw [hcb]
  simp only [Bool.false_eq_true, if_false]
  by_cases hall : ∀ k, k < t.vin.length → checkAt C prev t k = true
  · rw [decide_eq_true hall]
    exact verifyOuter_all C prev t hwf hall t.vin
      (fun i hi => (hwf i hi).imp fun p hp => ⟨hp.1, hp.2.1⟩)
  · rw [decide_eq_false hall]
    rcases hv : t.vin with _ | ⟨i, rest⟩
    · exfalso
      apply hall
      intro k hk
      rw [hv] at hk
      exact absurd hk (by simp)
    · refine verifyOuter_false C prev t hwf hall i rest ?_
      have hi : i ∈ t.vin := by rw [hv]; simp
      exact (hwf i hi).imp fun p hp => ⟨hp.1, hp.2.1⟩

/-- C7 amended: verify returns Ok(true) for every coinbase transaction
regardless of prev_txs; a non-coinbase transaction whose first input's
txid has no entry panics (unwrap of None) instead of returning the error,
which is reserved for a present entry with an empty id; and under a
well-formed map a failing Ed25519 check yields Ok(false). -/
theorem c7_verify_error_behaviour :
    (∀ (C : Crypto) (prev : TxMap) (t : Transaction), t.is_coinbase = true →
      Transaction.verify C t prev = some (Except.ok true)) ∧
    (∀ (C : Crypto) (prev : TxMap) (t : Transaction) (i : TXInput) (rest : List TXInput),
      t.is_coinbase = false → t.vin = i :: rest → prev.lookup i.txid = none →
      Transaction.verify C t prev = none) ∧
    (∀ (C : Crypto) (prev : TxMap) (t : Transaction), t.is_coinbase = false →
      PrevOk prev t → (∃ k, k < t.vin.length ∧ checkAt C prev t k = false) →
      Transaction.verify C t prev = some (Except.ok false)) := by
  refine ⟨?_, ?_, ?_⟩
  · intro C prev t hcb
    unfold Transaction.verify
    rw [hcb]
    rfl
  · intro C prev t i rest hcb hvin hlk
    unfold Transaction.verify
    rw [hcb]
    simp only [Bool.false_eq_true, if_false]
    rw [hvin, verifyOuter, hlk]
  · intro C prev t hcb hwf hfail
    rw [verify_wf C prev t hcb hwf]
    obtain ⟨k, hk, hc⟩ := hfail
    have hdec : (decide (∀ k, k < t.vin.length → checkAt C prev t k = true)) = false := by
      refine decide_eq_false ?_
      intro hall
      rw [hall k hk] at hc
      exact Bool.noConfusion hc
    rw [hdec]

/-- Witness for c7_verify_error_behaviour: a concrete coinbase verifies as
true; the concrete c7tx with an empty map panics; the concrete badly
signed c4tx2 under the well-formed map c1prev yields Ok(false). -/
theorem c7_verify_error_behaviour_witness :
    Transaction.verify cryptoC c7cb [] = some (Except.ok true) ∧
    Transaction.verify cryptoC c7tx [] = none ∧
    Transaction.verify cryptoC c4tx2 c1prev = some (Except.ok false) := by
  refine ⟨c7_verify_error_behaviour.1 cryptoC [] c7cb (by decide),
    c7_verify_error_behaviour.2.1 cryptoC [] c7tx ⟨"zz", 0, [], []⟩ [] (by decide) (by decide)
      (by decide), ?_⟩
  refine c7_verify_error_behaviour.2.2 cryptoC c1prev c4tx2 (by decide) ?_ ?_
  · intro i hi
    have hieq : i = (⟨"p", 0, [9, 9], [3]⟩ : TXInput) := by
      simpa [c4tx2] using hi
    subst hieq
    exact ⟨c1prevTx, by decide, by decide, by decide⟩
  · exact ⟨0, by decide, by decide⟩

/-- C7 counterexample: the non-coinbase c7tx has an input whose txid has
no entry in the empty previous-transaction map, and verify panics (none),
rather than yielding an error as the claim states. -/
theorem c7_missing_prev_panics :
    c7tx.is_coinbase = false ∧ Transaction.verify cryptoC c7tx [] = none := by
  decide

end BRust
